import Mathlib

/-!
Verification development for the Hjson serializer (src/hjson/src/ser.rs).

Strings are modelled as lists of Unicode scalar values (`List Char`); the
byte-oriented `escape_bytes` routine is additionally modelled at byte
granularity (`List Nat`).  The regex character classes of `quote_str` and
`escape_key` are transcribed as decidable character predicates.  The writer
is modelled by returning the emitted characters; the `ParseNumber` recognizer
lives outside the provided source, so the boolean result of
`ParseNumber::parse` is a parameter of the model (`is_number`).
-/

/-- The triple-quote delimiter, three apostrophe characters (codepoint 39). -/
def tq : List Char := [Char.ofNat 39, Char.ofNat 39, Char.ofNat 39]

def lbrace : Char := Char.ofNat 123

def rbrace : Char := Char.ofNat 125

def slashSlash : List Char := ['/', '/']

def slashStar : List Char := ['/', '*']

/-- Unicode whitespace, the character class matched by regex `\s`. -/
def isWs (c : Char) : Bool :=
  let n := c.toNat
  (9 ≤ n && n ≤ 13) || n = 32 || n = 133 || n = 160 || n = 5760 ||
  (8192 ≤ n && n ≤ 8202) || n = 8232 || n = 8233 || n = 8239 || n = 8287 || n = 12288

/-- Character class of the NEEDS_QUOTES regex:
`[\x00-\x1f\x7f-\u009f­؀-؄܏឴឵‌-‏ - ⁠-⁯﻿￰-￿]`. -/
def needsQuotesChar (c : Char) : Bool :=
  let n := c.toNat
  n ≤ 0x1f || (0x7f ≤ n && n ≤ 0x9f) || n = 0xad || (0x600 ≤ n && n ≤ 0x604) ||
  n = 0x70f || n = 0x17b4 || n = 0x17b5 || (0x200c ≤ n && n ≤ 0x200f) ||
  (0x2028 ≤ n && n ≤ 0x202f) || (0x2060 ≤ n && n ≤ 0x206f) || n = 0xfeff ||
  (0xfff0 ≤ n && n ≤ 0xffff)

/-- Character class of the NEEDS_ESCAPE regex: NEEDS_QUOTES plus `\` and `"`. -/
def needsEscapeChar (c : Char) : Bool :=
  c = '\\' || c = '"' || needsQuotesChar c

/-- Character class of the NEEDS_ESCAPEML regex: NEEDS_QUOTES without
`\n` (0x0a) and `\r` (0x0d):
`[\x00-\x09\x0b\x0c\x0e-\x1f\x7f-\u009f­؀-؄܏឴឵‌-‏ - ⁠-⁯﻿￰-￿]`. -/
def needsEscapeMLChar (c : Char) : Bool :=
  let n := c.toNat
  n ≤ 9 || n = 0xb || n = 0xc || (0xe ≤ n && n ≤ 0x1f) ||
  (0x7f ≤ n && n ≤ 0x9f) || n = 0xad || (0x600 ≤ n && n ≤ 0x604) ||
  n = 0x70f || n = 0x17b4 || n = 0x17b5 || (0x200c ≤ n && n ≤ 0x200f) ||
  (0x2028 ≤ n && n ≤ 0x202f) || (0x2060 ≤ n && n ≤ 0x206f) || n = 0xfeff ||
  (0xfff0 ≤ n && n ≤ 0xffff)

/-- Unanchored substring search, the semantics of `Regex::is_match` for a
fixed-word pattern. -/
def containsSub (pat : List Char) : List Char → Bool
  | [] => List.isPrefixOf pat []
  | s@(_ :: t) => List.isPrefixOf pat s || containsSub pat t

/-- `NEEDS_QUOTES.is_match value`. -/
def needsQuotes (v : List Char) : Bool := v.any needsQuotesChar

/-- `NEEDS_ESCAPE.is_match value`. -/
def needsEscape (v : List Char) : Bool := v.any needsEscapeChar

/-- `NEEDS_ESCAPEML.is_match value`: the regex alternation of a triple-quote
sequence with the `needsEscapeMLChar` class. -/
def needsEscapeML (v : List Char) : Bool :=
  containsSub tq v || v.any needsEscapeMLChar

/-- `NEEDS_QUOTES2.is_match value`: leading whitespace, a leading double
quote, triple-quote, comment marker or open bracket or brace, or trailing
whitespace. -/
def needsQuotes2 (v : List Char) : Bool :=
  (match v with
   | [] => false
   | c :: _ => isWs c || c = '"' || c = '#' || c = lbrace || c = '[')
  || List.isPrefixOf tq v || List.isPrefixOf slashStar v || List.isPrefixOf slashSlash v
  || (match v.getLast? with
      | Option.none => false
      | Option.some c => isWs c)

def kwTrue : List Char := ['t', 'r', 'u', 'e']

def kwFalse : List Char := ['f', 'a', 'l', 's', 'e']

def kwNull : List Char := ['n', 'u', 'l', 'l']

/-- The part of the STARTS_WITH_KEYWORD regex after the keyword:
`\s*((,|\]|\}|#|//|/\*).*)?$`.  The regex `.` does not match `\n`,
so the tail after the continuation token must be free of line feeds. -/
def keywordRest (r : List Char) : Bool :=
  match r.dropWhile isWs with
  | [] => true
  | c :: t =>
    ((c = ',' || c = ']' || c = rbrace || c = '#') && !t.contains '\n') ||
    (c = '/' && (match t with
      | c2 :: t2 => (c2 = '/' || c2 = '*') && !t2.contains '\n'
      | [] => false))

/-- `STARTS_WITH_KEYWORD.is_match value`: regex
`^(true|false|null)\s*((,|\]|\}|#|//|/\*).*)?$`. -/
def startsWithKeyword (v : List Char) : Bool :=
  (List.isPrefixOf kwTrue v && keywordRest (v.drop 4)) ||
  (List.isPrefixOf kwFalse v && keywordRest (v.drop 5)) ||
  (List.isPrefixOf kwNull v && keywordRest (v.drop 4))

/-- The escape table of `escape_bytes`, at character granularity (every
escaped byte is ASCII, so byte and character granularity agree). -/
def escape_char_seq (c : Char) : Option (List Char) :=
  if c = '"' then Option.some ['\\', '"']
  else if c = '\\' then Option.some ['\\', '\\']
  else if c = Char.ofNat 8 then Option.some ['\\', 'b']
  else if c = Char.ofNat 12 then Option.some ['\\', 'f']
  else if c = '\n' then Option.some ['\\', 'n']
  else if c = Char.ofNat 13 then Option.some ['\\', 'r']
  else if c = Char.ofNat 9 then Option.some ['\\', 't']
  else Option.none

/-- Body of the `escape_bytes` loop: escaped characters are replaced by
their escape sequence, all others are copied verbatim. -/
def escape_content : List Char → List Char
  | [] => []
  | c :: rest => ((escape_char_seq c).getD [c]) ++ escape_content rest

/-- `escape_bytes`, at character granularity: a double quote, the escaped
content, a double quote. -/
def escape_chars (v : List Char) : List Char :=
  '"' :: escape_content v ++ ['"']

/-- The escape table of `escape_bytes` at byte granularity
(34 = `"`, 92 = `\`, 8, 12, 10, 13, 9 are the control bytes). -/
def escape_byte (b : Nat) : Option (List Nat) :=
  if b = 34 then Option.some [92, 34]
  else if b = 92 then Option.some [92, 92]
  else if b = 8 then Option.some [92, 98]
  else if b = 12 then Option.some [92, 102]
  else if b = 10 then Option.some [92, 110]
  else if b = 13 then Option.some [92, 114]
  else if b = 9 then Option.some [92, 116]
  else Option.none

/-- Body of the `escape_bytes` loop at byte granularity. -/
def escape_bytes_content : List Nat → List Nat
  | [] => []
  | b :: rest => ((escape_byte b).getD [b]) ++ escape_bytes_content rest

/-- `escape_bytes`: a `"` byte, the escaped content, a `"` byte. -/
def escape_bytes (bs : List Nat) : List Nat :=
  34 :: escape_bytes_content bs ++ [34]

/-- Inverse of the escape table of `escape_bytes`. -/
def unescape_byte (b : Nat) : Option Nat :=
  if b = 34 then Option.some 34
  else if b = 92 then Option.some 92
  else if b = 98 then Option.some 8
  else if b = 102 then Option.some 12
  else if b = 110 then Option.some 10
  else if b = 114 then Option.some 13
  else if b = 116 then Option.some 9
  else Option.none

/-- Un-escaping of a quoted-string body: byte 92 starts a two-byte escape
sequence which is mapped back through the escape table, any other byte is
copied verbatim; a dangling escape fails. -/
def unescape_content : List Nat → Option (List Nat)
  | [] => Option.some []
  | b :: rest =>
    if b = 92 then
      match rest with
      | [] => Option.none
      | e :: rest2 =>
        match unescape_byte e, unescape_content rest2 with
        | Option.some c, Option.some r => Option.some (c :: r)
        | _, _ => Option.none
    else (unescape_content rest).map (fun r => b :: r)

/-- The free function `indent(wr, n, s)`: `n` repetitions of the indent
unit `s`. -/
def indentRep (n : Nat) (s : List Char) : List Char :=
  match n with
  | 0 => []
  | Nat.succ m => s ++ indentRep m s

/-- `str::split("\n")`: split on every line feed; always non-empty, and the
separators are consumed. -/
def splitNl : List Char → List (List Char)
  | [] => [[]]
  | c :: rest =>
    if c = '\n' then [] :: splitNl rest
    else
      match splitNl rest with
      | [] => [[c]]
      | h :: t => (c :: h) :: t

/-- Join a list of lines with line feeds (inverse of `splitNl`). -/
def joinNl : List (List Char) → List Char
  | [] => []
  | [l] => l
  | l :: l2 :: rest => l ++ '\n' :: joinNl (l2 :: rest)

/-- The `HjsonFormatter` state.  The Rust `Vec` stack is modelled with its
top at the head of the list (push is cons, pop takes the head). -/
structure HjsonFormatter where
  current_indent : Nat
  current_is_array : Bool
  stack : List Bool
  at_colon : Bool
  indent : List Char
  braces_same_line : Bool
deriving DecidableEq, Repr

/-- `HjsonFormatter::with_indent`. -/
def HjsonFormatter.with_indent (s : List Char) : HjsonFormatter :=
  { current_indent := 0, current_is_array := false, stack := [],
    at_colon := false, indent := s, braces_same_line := false }

/-- `HjsonFormatter::new`: two-space indentation. -/
def HjsonFormatter.new : HjsonFormatter :=
  HjsonFormatter.with_indent [' ', ' ']

/-- `start_value`: emit the deferred post-colon space, if pending. -/
def HjsonFormatter.start_value (f : HjsonFormatter) : HjsonFormatter × List Char :=
  if f.at_colon then ({ f with at_colon := false }, [' ']) else (f, [])

/-- `newline(add_indent)`: clear `at_colon`, emit a line feed and
`current_indent + add_indent` (clamped at zero) repetitions of the indent
unit. -/
def HjsonFormatter.newline (f : HjsonFormatter) (add : Int) : HjsonFormatter × List Char :=
  let ii : Int := (f.current_indent : Int) + add
  ({ f with at_colon := false }, '\n' :: indentRep ii.toNat f.indent)

/-- `comma(first)`: the `first` flag is ignored; a line feed plus indentation
at the current depth is always emitted, and no comma glyph. -/
def HjsonFormatter.comma (f : HjsonFormatter) (_first : Bool) : HjsonFormatter × List Char :=
  (f, '\n' :: indentRep f.current_indent f.indent)

/-- `colon()`: with same-line braces emit `: ` immediately; otherwise emit a
bare colon and defer the space to the next `start_value`. -/
def HjsonFormatter.colon (f : HjsonFormatter) : HjsonFormatter × List Char :=
  ({ f with at_colon := !f.braces_same_line },
   if f.braces_same_line then [':', ' '] else [':'])

/-- `open(ch)` (named `fopen` because `open` is reserved in Lean): newline
inside a map (unless same-line braces), otherwise honour the pending space;
then increment depth, push the enclosing container kind, record the new kind
and emit the bracket. -/
def HjsonFormatter.fopen (f : HjsonFormatter) (ch : Char) : HjsonFormatter × List Char :=
  let r :=
    if 0 < f.current_indent && !f.current_is_array && !f.braces_same_line
    then f.newline 0
    else f.start_value
  ({ r.1 with current_indent := r.1.current_indent + 1,
              stack := r.1.current_is_array :: r.1.stack,
              current_is_array := ch = '[' },
   r.2 ++ [ch])

/-- `close(ch)`: decrement depth and pop the stack — both panic in Rust when
the formatter is at depth zero (modelled as `Option.none`) — then emit a line
feed, indentation at the new depth, and the bracket. -/
def HjsonFormatter.close (f : HjsonFormatter) (ch : Char) : Option (HjsonFormatter × List Char) :=
  if f.current_indent = 0 then Option.none
  else
    match f.stack with
    | [] => Option.none
    | a :: rest =>
      Option.some
        ({ f with current_indent := f.current_indent - 1,
                  current_is_array := a, stack := rest },
         '\n' :: indentRep (f.current_indent - 1) f.indent ++ [ch])

/-- The `for line in a` loop of `ml_str`: each line is preceded by a newline
at depth+1 when non-empty, or by a bare newline (the `-999` sentinel clamps
the indentation to zero) when empty. -/
def ml_lines (f : HjsonFormatter) : List (List Char) → HjsonFormatter × List Char
  | [] => (f, [])
  | l :: rest =>
    let r1 := f.newline (if 0 < l.length then 1 else -999)
    let r2 := ml_lines r1.1 rest
    (r2.1, r1.2 ++ l ++ r2.2)

/-- `ml_str`: wrap the string into the triple-quote multiline format. -/
def ml_str (f : HjsonFormatter) (value : List Char) : HjsonFormatter × List Char :=
  let a := splitNl value
  if a.length = 1 then
    (f.start_value.1, f.start_value.2 ++ tq ++ a.headD [] ++ tq)
  else
    let r1 := f.newline 1
    let r2 := ml_lines r1.1 a
    let r3 := r2.1.newline 1
    (r3.1, r1.2 ++ tq ++ r2.2 ++ r3.2 ++ tq)

/-- `quote_str` (the body of `serialize_str`): empty strings are quoted;
a string that looks like a number, needs quotes, or starts with a keyword is
emitted as a multiline block when that is safe and as a quoted escaped string
otherwise; all remaining strings are emitted bare.  `is_number` is the result
of `ParseNumber::new(value.bytes()).parse(true).is_ok()`, whose definition is
outside the provided source. -/
def quote_str (is_number : Bool) (f : HjsonFormatter) (value : List Char) :
    HjsonFormatter × List Char :=
  if value.isEmpty then
    (f.start_value.1, f.start_value.2 ++ escape_chars value)
  else if is_number || needsQuotes value || needsQuotes2 value || startsWithKeyword value then
    if needsEscape value && !needsEscapeML value then
      ml_str f value
    else
      (f.start_value.1, f.start_value.2 ++ escape_chars value)
  else
    (f.start_value.1, f.start_value.2 ++ value)

/-- The character class `[,\{\[\}\]\s:#"]` of the NEEDS_ESCAPE_NAME regex. -/
def nameEscChar (c : Char) : Bool :=
  c = ',' || c = lbrace || c = '[' || c = rbrace || c = ']' ||
  isWs c || c = ':' || c = '#' || c = '"'

/-- The NEEDS_ESCAPE_NAME regex of `escape_key`: the `nameEscChar` class,
a comment-opening or triple-quote sequence, or the empty key. -/
def NEEDS_ESCAPE_NAME (v : List Char) : Bool :=
  v.any nameEscChar ||
  containsSub slashSlash v || containsSub slashStar v || containsSub tq v ||
  v.isEmpty

/-- `escape_key`: quoted-and-escaped when NEEDS_ESCAPE_NAME matches,
otherwise the key bytes verbatim. -/
def escape_key (v : List Char) : List Char :=
  if NEEDS_ESCAPE_NAME v then escape_chars v else v

/-- `std::num::FpCategory`. -/
inductive FpCat where
  | nan
  | infinite
  | zero
  | subnormal
  | normal
deriving DecidableEq, Repr

/-- An `f64` value, abstracted to what the serializer inspects: its IEEE
category and its two standard-library renderings — `format!("{}", v)`
(field `f1`) and `format!("{:e}", v)` (field `f2`).  The bit pattern itself
is never consulted by the serializer. -/
structure F64 where
  category : FpCat
  f1 : List Char
  f2 : List Char
deriving DecidableEq, Repr

/-- The constant `0f64`, with its standard-library renderings
(`format!("{}", 0f64) = "0"` and `format!("{:e}", 0f64) = "0e0"`). -/
def posZeroF64 : F64 := { category := FpCat.zero, f1 := ['0'], f2 := ['0', 'e', '0'] }

/-- `str::replace("e", "e+")` on the scientific rendering. -/
def replaceEPlus : List Char → List Char
  | [] => []
  | c :: rest => (if c = 'e' then ['e', '+'] else [c]) ++ replaceEPlus rest

/-- `fmt_small`: choose the plain rendering unless it is more than one
character longer than the scientific rendering; a chosen scientific form
without `e-` gets its `e` replaced by `e+`. -/
def fmt_small (v : F64) : List Char :=
  if v.f1.length ≤ v.f2.length + 1 then v.f1
  else if containsSub ['e', '-'] v.f2 then v.f2
  else replaceEPlus v.f2

/-- `fmt_f64_or_null`: NaN and infinities become the literal `null`,
every other value goes through `fmt_small`. -/
def fmt_f64_or_null (v : F64) : List Char :=
  match v.category with
  | FpCat.nan => kwNull
  | FpCat.infinite => kwNull
  | _ => fmt_small v

/-- `serialize_f64`: `start_value`, then the value with negative zero
canonicalized (`value == -0f64` holds exactly for the IEEE zeros, and the
replacement is `0f64`) rendered through `fmt_f64_or_null`. -/
def serialize_f64 (f : HjsonFormatter) (v : F64) : HjsonFormatter × List Char :=
  (f.start_value.1,
   f.start_value.2 ++ fmt_f64_or_null (if v.category = FpCat.zero then posZeroF64 else v))

/-- The value tree driven through the serializer (the serde visitor input).
Map keys are arbitrary values, as in serde; the serializer itself rejects
non-string keys. -/
inductive Value where
  | bool (b : Bool)
  | int (n : Int)
  | float (x : F64)
  | str (s : List Char)
  | unit
  | none
  | some (v : Value)
  | seq (elems : List Value)
  | map (entries : List (Value × Value))
deriving Repr

/-- Is this value a string (the only key kind `MapKeySerializer` accepts)? -/
def isStrValue : Value → Bool
  | Value.str _ => true
  | _ => false

/-- The error outcomes of the model: `keyMustBeAString` is
`ErrorCode::KeyMustBeAString`; `underflow` stands for the Rust panic of
`HjsonFormatter::close` at depth zero (depth decrement underflow or
`stack.pop().unwrap()` on an empty stack). -/
inductive SerErr where
  | keyMustBeAString
  | underflow
deriving DecidableEq, Repr

/-- The serializer state: the formatter plus the `first` cursor flag. -/
structure SState where
  fmt : HjsonFormatter
  first : Bool
deriving DecidableEq, Repr

/-- `Serializer::new(writer)`: fresh formatter, `first = false`. -/
def newSerializer : SState := { fmt := HjsonFormatter.new, first := false }

/-- `MapKeySerializer`: strings go through `escape_key` (written directly to
the writer, no formatter interaction); every other value kind is rejected
with `ErrorCode::KeyMustBeAString`. -/
def mapKeySer : Value → Except SerErr (List Char)
  | Value.str s => Except.ok (escape_key s)
  | _ => Except.error SerErr.keyMustBeAString

/-- `Display` rendering of an integer (`write!("{}", value)`). -/
def intChars (n : Int) : List Char := (toString n).toList

mutual

/-- The value visitor dispatch of `impl ser::Serializer for Serializer`:
one case per value kind, returning the updated state and emitted text.
`is_number` abstracts `ParseNumber` (not part of the provided source). -/
def serializeValue (isNum : List Char → Bool) (st : SState) :
    Value → Except SerErr (SState × List Char)
  | Value.bool b =>
    Except.ok ({ st with fmt := st.fmt.start_value.1 },
               st.fmt.start_value.2 ++ (if b then kwTrue else kwFalse))
  | Value.int n =>
    Except.ok ({ st with fmt := st.fmt.start_value.1 },
               st.fmt.start_value.2 ++ intChars n)
  | Value.float x =>
    Except.ok ({ st with fmt := (serialize_f64 st.fmt x).1 }, (serialize_f64 st.fmt x).2)
  | Value.str s =>
    Except.ok ({ st with fmt := (quote_str (isNum s) st.fmt s).1 },
               (quote_str (isNum s) st.fmt s).2)
  | Value.unit =>
    Except.ok ({ st with fmt := st.fmt.start_value.1 }, st.fmt.start_value.2 ++ kwNull)
  | Value.none =>
    Except.ok ({ st with fmt := st.fmt.start_value.1 }, st.fmt.start_value.2 ++ kwNull)
  | Value.some v => serializeValue isNum st v
  | Value.seq elems =>
    match elems with
    | [] =>
      Except.ok ({ st with fmt := st.fmt.start_value.1 },
                 st.fmt.start_value.2 ++ ['[', ']'])
    | _ =>
      let r1 := st.fmt.fopen '['
      match serializeElems isNum { fmt := r1.1, first := true } elems with
      | Except.error e => Except.error e
      | Except.ok p =>
        match p.1.fmt.close ']' with
        | Option.none => Except.error SerErr.underflow
        | Option.some q => Except.ok ({ p.1 with fmt := q.1 }, r1.2 ++ p.2 ++ q.2)
  | Value.map entries =>
    match entries with
    | [] =>
      Except.ok ({ st with fmt := st.fmt.start_value.1 },
                 st.fmt.start_value.2 ++ [lbrace, rbrace])
    | _ =>
      let r1 := st.fmt.fopen lbrace
      match serializeEntries isNum { fmt := r1.1, first := true } entries with
      | Except.error e => Except.error e
      | Except.ok p =>
        match p.1.fmt.close rbrace with
        | Option.none => Except.error SerErr.underflow
        | Option.some q => Except.ok ({ p.1 with fmt := q.1 }, r1.2 ++ p.2 ++ q.2)

/-- The sequence-element loop: `serialize_seq_elt` for each element —
`comma(first)`, the element, then `first = false`. -/
def serializeElems (isNum : List Char → Bool) (st : SState) :
    List Value → Except SerErr (SState × List Char)
  | [] => Except.ok (st, [])
  | v :: rest =>
    let r1 := st.fmt.comma st.first
    match serializeValue isNum { st with fmt := r1.1 } v with
    | Except.error e => Except.error e
    | Except.ok p =>
      match serializeElems isNum { p.1 with first := false } rest with
      | Except.error e => Except.error e
      | Except.ok p2 => Except.ok (p2.1, r1.2 ++ p.2 ++ p2.2)

/-- The map-entry loop: `serialize_map_elt` for each entry — `comma(first)`,
the key through `MapKeySerializer`, `colon`, the value, then
`first = false`. -/
def serializeEntries (isNum : List Char → Bool) (st : SState) :
    List (Value × Value) → Except SerErr (SState × List Char)
  | [] => Except.ok (st, [])
  | (k, v) :: rest =>
    let r1 := st.fmt.comma st.first
    match mapKeySer k with
    | Except.error e => Except.error e
    | Except.ok ok =>
      let rc := r1.1.colon
      match serializeValue isNum { st with fmt := rc.1 } v with
      | Except.error e => Except.error e
      | Except.ok p =>
        match serializeEntries isNum { p.1 with first := false } rest with
        | Except.error e => Except.error e
        | Except.ok p2 => Except.ok (p2.1, r1.2 ++ ok ++ rc.2 ++ p.2 ++ p2.2)

end

/-- The formatter operations, as an instruction alphabet for claims about
call sequences on `HjsonFormatter`. -/
inductive FOp where
  | fopen (ch : Char)
  | comma (first : Bool)
  | colon
  | close (ch : Char)
  | newline (add : Int)
  | start_value
deriving DecidableEq, Repr

/-- One formatter call.  Only `close` is partial (it panics — `Option.none` —
at depth zero or on an empty stack). -/
def stepF (f : HjsonFormatter) : FOp → Option (HjsonFormatter × List Char)
  | FOp.fopen ch => Option.some (f.fopen ch)
  | FOp.comma b => Option.some (f.comma b)
  | FOp.colon => Option.some f.colon
  | FOp.close ch => f.close ch
  | FOp.newline add => Option.some (f.newline add)
  | FOp.start_value => Option.some f.start_value

/-- Run a sequence of formatter calls, concatenating the emitted text. -/
def runOps (f : HjsonFormatter) : List FOp → Option (HjsonFormatter × List Char)
  | [] => Option.some (f, [])
  | op :: rest =>
    match stepF f op with
    | Option.none => Option.none
    | Option.some p =>
      match runOps p.1 rest with
      | Option.none => Option.none
      | Option.some p2 => Option.some (p2.1, p.2 ++ p2.2)

/-- Is this operation a `close` call? -/
def isCloseOp : FOp → Bool
  | FOp.close _ => true
  | _ => false

/-- Is this operation an `open` call? -/
def isOpenOp : FOp → Bool
  | FOp.fopen _ => true
  | _ => false

/-- Number of `open` calls in a sequence. -/
def openCount (ops : List FOp) : Nat := ops.countP isOpenOp

/-- Number of `close` calls in a sequence. -/
def closeCount (ops : List FOp) : Nat := ops.countP isCloseOp

/-- The key-escaping condition exactly as the specification words it
(refinement definition, written from the spec, to be compared with
NEEDS_ESCAPE_NAME): the character class omits the double quote. -/
def claimKeyChar (c : Char) : Bool :=
  c = ',' || c = lbrace || c = '[' || c = rbrace || c = ']' ||
  c = ':' || c = '#' || isWs c

/-- The key-escaping condition as claimed: empty, or one of the listed
characters or whitespace, or a comment-opening or triple-quote sequence. -/
def claimKeyNeedsQuote (v : List Char) : Bool :=
  v.isEmpty || v.any claimKeyChar ||
  containsSub slashSlash v || containsSub slashStar v || containsSub tq v

/-- `claimKeyChar` amended to also cover the double quote, as the
NEEDS_ESCAPE_NAME character class does. -/
def claimKeyCharAmended (c : Char) : Bool :=
  c = ',' || c = lbrace || c = '[' || c = rbrace || c = ']' ||
  c = ':' || c = '#' || c = '"' || isWs c

/-- The amended key-escaping condition: `claimKeyNeedsQuote` with the
double quote added to the character class. -/
def claimKeyNeedsQuoteAmended (v : List Char) : Bool :=
  v.isEmpty || v.any claimKeyCharAmended ||
  containsSub slashSlash v || containsSub slashStar v || containsSub tq v

/-- The per-line pieces emitted inside a multiline block: each non-empty
line of the string carries indentation one level below the current depth,
each empty line is bare. -/
def mlPieces (f : HjsonFormatter) (v : List Char) : List (List Char) :=
  (splitNl v).map (fun l =>
    (if l = [] then [] else indentRep (f.current_indent + 1) f.indent) ++ l)

/-- The text of a multiline block between its two triple-quote delimiters: the
pieces separated by line feeds, opened by a line feed and closed by a line
feed plus the indentation that precedes the closing delimiter. -/
def mlContent (f : HjsonFormatter) (v : List Char) : List Char :=
  joinNl ([] :: mlPieces f v) ++ ('\n' :: indentRep (f.current_indent + 1) f.indent)

theorem splitNl_ne_nil (v : List Char) : splitNl v ≠ [] := by
  induction v with
  | nil => simp [splitNl]
  | cons c rest ih =>
    by_cases h : c = '\n'
    · simp [splitNl, h]
    · simp only [splitNl, if_neg h]
      cases hs : splitNl rest with
      | nil => simp
      | cons a t => simp

theorem not_mem_nl_splitNl (v : List Char) : ∀ l ∈ splitNl v, '\n' ∉ l := by
  induction v with
  | nil =>
    intro l hl
    simp [splitNl] at hl
    simp [hl]
  | cons c rest ih =>
    intro l hl
    by_cases h : c = '\n'
    · simp only [splitNl, if_pos h] at hl
      rcases List.mem_cons.mp hl with h1 | h2
      · simp [h1]
      · exact ih _ h2
    · simp only [splitNl, if_neg h] at hl
      cases hs : splitNl rest with
      | nil => exact absurd hs (splitNl_ne_nil rest)
      | cons a t =>
        rw [hs] at hl
        rcases List.mem_cons.mp hl with h1 | h2
        · subst h1
          intro hm
          rcases List.mem_cons.mp hm with h3 | h4
          · exact h h3.symm
          · exact ih a (hs ▸ List.mem_cons_self a t) h4
        · exact ih l (hs ▸ List.mem_cons_of_mem a h2)

theorem sumLen_splitNl (v : List Char) :
    ((splitNl v).map List.length).sum + (splitNl v).length = v.length + 1 := by
  induction v with
  | nil => simp [splitNl]
  | cons c rest ih =>
    by_cases h : c = '\n'
    · simp only [splitNl, if_pos h, List.map_cons, List.sum_cons, List.length_cons]
      simp only [List.length_nil, Nat.zero_add, List.length_cons]
      omega
    · simp only [splitNl, if_neg h]
      cases hs : splitNl rest with
      | nil => exact absurd hs (splitNl_ne_nil rest)
      | cons a t =>
        rw [hs] at ih
        simp only [List.map_cons, List.sum_cons, List.length_cons] at ih ⊢
        omega

theorem splitNl_of_not_mem (v : List Char) (h : '\n' ∉ v) : splitNl v = [v] := by
  induction v with
  | nil => simp [splitNl]
  | cons c rest ih =>
    have hc : ¬ c = '\n' := fun he => h (he ▸ List.mem_cons_self c rest)
    have hr : '\n' ∉ rest := fun hm => h (List.mem_cons_of_mem c hm)
    simp only [splitNl, if_neg hc, ih hr]

theorem two_le_splitNl_of_mem (v : List Char) (h : '\n' ∈ v) :
    2 ≤ (splitNl v).length := by
  induction v with
  | nil => simp at h
  | cons c rest ih =>
    by_cases hc : c = '\n'
    · simp only [splitNl, if_pos hc, List.length_cons]
      have := splitNl_ne_nil rest
      cases hs : splitNl rest with
      | nil => exact absurd hs this
      | cons a t => simp
    · have hr : '\n' ∈ rest := by
        rcases List.mem_cons.mp h with h1 | h2
        · exact absurd h1.symm hc
        · exact h2
      simp only [splitNl, if_neg hc]
      cases hs : splitNl rest with
      | nil => exact absurd hs (splitNl_ne_nil rest)
      | cons a t =>
        have := ih hr
        rw [hs] at this
        simpa using this

theorem splitNl_append_nl (l w : List Char) (h : '\n' ∉ l) :
    splitNl (l ++ '\n' :: w) = l :: splitNl w := by
  induction l with
  | nil => simp [splitNl]
  | cons c rest ih =>
    have hc : ¬ c = '\n' := fun he => h (he ▸ List.mem_cons_self c rest)
    have hr : '\n' ∉ rest := fun hm => h (List.mem_cons_of_mem c hm)
    simp only [List.cons_append, splitNl, if_neg hc, List.append_eq, ih hr]

theorem splitNl_joinNl (ls : List (List Char)) (h1 : ls ≠ [])
    (h2 : ∀ l ∈ ls, '\n' ∉ l) : splitNl (joinNl ls) = ls := by
  induction ls with
  | nil => exact absurd rfl h1
  | cons l rest ih =>
    cases rest with
    | nil =>
      simp only [joinNl]
      exact splitNl_of_not_mem l (h2 l (List.mem_cons_self l []))
    | cons l2 rest2 =>
      simp only [joinNl]
      rw [splitNl_append_nl l (joinNl (l2 :: rest2)) (h2 l (List.mem_cons_self _ _))]
      rw [ih (by simp) (fun x hx => h2 x (List.mem_cons_of_mem l hx))]

theorem one_le_escape_char_seq (c : Char) :
    1 ≤ ((escape_char_seq c).getD [c]).length := by
  unfold escape_char_seq
  split_ifs <;> simp

theorem escape_content_length (v : List Char) :
    v.length ≤ (escape_content v).length := by
  induction v with
  | nil => simp [escape_content]
  | cons c rest ih =>
    simp only [escape_content, List.length_append, List.length_cons]
    have := one_le_escape_char_seq c
    omega

theorem escape_chars_length (v : List Char) :
    v.length + 2 ≤ (escape_chars v).length := by
  simp only [escape_chars, List.length_cons, List.length_append, List.length_singleton]
  have := escape_content_length v
  omega

@[simp] theorem start_value_fst_ci (f : HjsonFormatter) :
    f.start_value.1.current_indent = f.current_indent := by
  unfold HjsonFormatter.start_value
  split_ifs <;> rfl

@[simp] theorem start_value_fst_stack (f : HjsonFormatter) :
    f.start_value.1.stack = f.stack := by
  unfold HjsonFormatter.start_value
  split_ifs <;> rfl

@[simp] theorem start_value_fst_indent (f : HjsonFormatter) :
    f.start_value.1.indent = f.indent := by
  unfold HjsonFormatter.start_value
  split_ifs <;> rfl

theorem start_value_snd (f : HjsonFormatter) :
    f.start_value.2 = [] ∨ f.start_value.2 = [' '] := by
  unfold HjsonFormatter.start_value
  split_ifs <;> simp

theorem start_value_snd_length (f : HjsonFormatter) :
    f.start_value.2.length ≤ 1 := by
  rcases start_value_snd f with h | h <;> simp [h]

@[simp] theorem newline_fst_ci (f : HjsonFormatter) (a : Int) :
    (f.newline a).1.current_indent = f.current_indent := rfl

@[simp] theorem newline_fst_stack (f : HjsonFormatter) (a : Int) :
    (f.newline a).1.stack = f.stack := rfl

@[simp] theorem newline_fst_indent (f : HjsonFormatter) (a : Int) :
    (f.newline a).1.indent = f.indent := rfl

@[simp] theorem comma_fst (f : HjsonFormatter) (b : Bool) :
    (f.comma b).1 = f := rfl

@[simp] theorem colon_fst_ci (f : HjsonFormatter) :
    f.colon.1.current_indent = f.current_indent := rfl

@[simp] theorem colon_fst_stack (f : HjsonFormatter) :
    f.colon.1.stack = f.stack := rfl

@[simp] theorem colon_fst_indent (f : HjsonFormatter) :
    f.colon.1.indent = f.indent := rfl

@[simp] theorem fopen_fst_ci (f : HjsonFormatter) (ch : Char) :
    (f.fopen ch).1.current_indent = f.current_indent + 1 := by
  unfold HjsonFormatter.fopen
  split_ifs <;> simp

@[simp] theorem fopen_fst_stack (f : HjsonFormatter) (ch : Char) :
    (f.fopen ch).1.stack = f.current_is_array :: f.stack := by
  unfold HjsonFormatter.fopen
  split_ifs
  · simp [HjsonFormatter.newline]
  · unfold HjsonFormatter.start_value
    split_ifs <;> simp

@[simp] theorem fopen_fst_indent (f : HjsonFormatter) (ch : Char) :
    (f.fopen ch).1.indent = f.indent := by
  unfold HjsonFormatter.fopen
  split_ifs <;> simp

theorem close_of_pos (f : HjsonFormatter) (ch : Char) (a : Bool) (rest : List Bool)
    (h1 : 0 < f.current_indent) (h2 : f.stack = a :: rest) :
    f.close ch = Option.some
      ({ f with current_indent := f.current_indent - 1,
                current_is_array := a, stack := rest },
       '\n' :: indentRep (f.current_indent - 1) f.indent ++ [ch]) := by
  unfold HjsonFormatter.close
  rw [if_neg (by omega), h2]

@[simp] theorem ml_lines_fst_ci (f : HjsonFormatter) (a : List (List Char)) :
    (ml_lines f a).1.current_indent = f.current_indent := by
  induction a generalizing f with
  | nil => rfl
  | cons l rest ih => simp only [ml_lines, ih, newline_fst_ci]

@[simp] theorem ml_lines_fst_stack (f : HjsonFormatter) (a : List (List Char)) :
    (ml_lines f a).1.stack = f.stack := by
  induction a generalizing f with
  | nil => rfl
  | cons l rest ih => simp only [ml_lines, ih, newline_fst_stack]

@[simp] theorem ml_lines_fst_indent (f : HjsonFormatter) (a : List (List Char)) :
    (ml_lines f a).1.indent = f.indent := by
  induction a generalizing f with
  | nil => rfl
  | cons l rest ih => simp only [ml_lines, ih, newline_fst_indent]

theorem ml_lines_snd (f : HjsonFormatter) (a : List (List Char)) :
    (ml_lines f a).2 =
      (a.map (fun l =>
        '\n' :: indentRep ((f.current_indent : Int) +
          (if 0 < l.length then 1 else -999)).toNat f.indent ++ l)).flatten := by
  induction a generalizing f with
  | nil => simp [ml_lines]
  | cons l rest ih =>
    simp only [ml_lines, List.map_cons, List.flatten_cons]
    rw [ih]
    simp only [HjsonFormatter.newline]

theorem ml_lines_snd_length (f : HjsonFormatter) (a : List (List Char)) :
    a.length + (a.map List.length).sum ≤ (ml_lines f a).2.length := by
  induction a generalizing f with
  | nil => simp [ml_lines]
  | cons l rest ih =>
    have h2 := ih (f.newline (if 0 < l.length then 1 else -999)).1
    simp only [ml_lines, List.length_cons, List.map_cons, List.sum_cons,
      List.length_append]
    have h3 : 1 ≤ (f.newline (if 0 < l.length then 1 else -999)).2.length := by
      simp [HjsonFormatter.newline]
    omega

theorem ml_str_fst_ci (f : HjsonFormatter) (v : List Char) :
    (ml_str f v).1.current_indent = f.current_indent := by
  simp only [ml_str]
  split_ifs <;> simp

theorem ml_str_fst_stack (f : HjsonFormatter) (v : List Char) :
    (ml_str f v).1.stack = f.stack := by
  simp only [ml_str]
  split_ifs <;> simp

theorem quote_str_fst_ci (b : Bool) (f : HjsonFormatter) (v : List Char) :
    (quote_str b f v).1.current_indent = f.current_indent := by
  simp only [quote_str]
  split_ifs <;> simp [ml_str_fst_ci]

theorem quote_str_fst_stack (b : Bool) (f : HjsonFormatter) (v : List Char) :
    (quote_str b f v).1.stack = f.stack := by
  simp only [quote_str]
  split_ifs <;> simp [ml_str_fst_stack]

theorem serialize_f64_fst_ci (f : HjsonFormatter) (v : F64) :
    (serialize_f64 f v).1.current_indent = f.current_indent := by
  simp [serialize_f64]

theorem serialize_f64_fst_stack (f : HjsonFormatter) (v : F64) :
    (serialize_f64 f v).1.stack = f.stack := by
  simp [serialize_f64]

theorem serializeValue_bool (isNum : List Char → Bool) (st : SState) (b : Bool) :
    serializeValue isNum st (Value.bool b) =
      Except.ok ({ st with fmt := st.fmt.start_value.1 },
                 st.fmt.start_value.2 ++ (if b then kwTrue else kwFalse)) := rfl

theorem serializeValue_int (isNum : List Char → Bool) (st : SState) (n : Int) :
    serializeValue isNum st (Value.int n) =
      Except.ok ({ st with fmt := st.fmt.start_value.1 },
                 st.fmt.start_value.2 ++ intChars n) := rfl

theorem serializeValue_float (isNum : List Char → Bool) (st : SState) (x : F64) :
    serializeValue isNum st (Value.float x) =
      Except.ok ({ st with fmt := (serialize_f64 st.fmt x).1 },
                 (serialize_f64 st.fmt x).2) := rfl

theorem serializeValue_str (isNum : List Char → Bool) (st : SState) (s : List Char) :
    serializeValue isNum st (Value.str s) =
      Except.ok ({ st with fmt := (quote_str (isNum s) st.fmt s).1 },
                 (quote_str (isNum s) st.fmt s).2) := rfl

theorem serializeValue_unit (isNum : List Char → Bool) (st : SState) :
    serializeValue isNum st Value.unit =
      Except.ok ({ st with fmt := st.fmt.start_value.1 },
                 st.fmt.start_value.2 ++ kwNull) := rfl

theorem serializeValue_none (isNum : List Char → Bool) (st : SState) :
    serializeValue isNum st Value.none =
      Except.ok ({ st with fmt := st.fmt.start_value.1 },
                 st.fmt.start_value.2 ++ kwNull) := rfl

theorem serializeValue_some (isNum : List Char → Bool) (st : SState) (v : Value) :
    serializeValue isNum st (Value.some v) = serializeValue isNum st v := rfl

theorem serializeValue_seq_nil (isNum : List Char → Bool) (st : SState) :
    serializeValue isNum st (Value.seq []) =
      Except.ok ({ st with fmt := st.fmt.start_value.1 },
                 st.fmt.start_value.2 ++ ['[', ']']) := rfl

theorem serializeValue_seq_cons (isNum : List Char → Bool) (st : SState)
    (v : Value) (vs : List Value) :
    serializeValue isNum st (Value.seq (v :: vs)) =
      (match serializeElems isNum { fmt := (st.fmt.fopen '[').1, first := true } (v :: vs) with
       | Except.error e => Except.error e
       | Except.ok p =>
         match p.1.fmt.close ']' with
         | Option.none => Except.error SerErr.underflow
         | Option.some q =>
           Except.ok ({ p.1 with fmt := q.1 }, (st.fmt.fopen '[').2 ++ p.2 ++ q.2)) := rfl

theorem serializeValue_map_nil (isNum : List Char → Bool) (st : SState) :
    serializeValue isNum st (Value.map []) =
      Except.ok ({ st with fmt := st.fmt.start_value.1 },
                 st.fmt.start_value.2 ++ [lbrace, rbrace]) := rfl

theorem serializeValue_map_cons (isNum : List Char → Bool) (st : SState)
    (kv : Value × Value) (rest : List (Value × Value)) :
    serializeValue isNum st (Value.map (kv :: rest)) =
      (match serializeEntries isNum { fmt := (st.fmt.fopen lbrace).1, first := true }
               (kv :: rest) with
       | Except.error e => Except.error e
       | Except.ok p =>
         match p.1.fmt.close rbrace with
         | Option.none => Except.error SerErr.underflow
         | Option.some q =>
           Except.ok ({ p.1 with fmt := q.1 }, (st.fmt.fopen lbrace).2 ++ p.2 ++ q.2)) := rfl

theorem serializeElems_nil (isNum : List Char → Bool) (st : SState) :
    serializeElems isNum st [] = Except.ok (st, []) := rfl

theorem serializeElems_cons (isNum : List Char → Bool) (st : SState)
    (v : Value) (rest : List Value) :
    serializeElems isNum st (v :: rest) =
      (match serializeValue isNum { st with fmt := (st.fmt.comma st.first).1 } v with
       | Except.error e => Except.error e
       | Except.ok p =>
         match serializeElems isNum { p.1 with first := false } rest with
         | Except.error e => Except.error e
         | Except.ok p2 =>
           Except.ok (p2.1, (st.fmt.comma st.first).2 ++ p.2 ++ p2.2)) := rfl

theorem serializeEntries_nil (isNum : List Char → Bool) (st : SState) :
    serializeEntries isNum st [] = Except.ok (st, []) := rfl

theorem serializeEntries_cons (isNum : List Char → Bool) (st : SState)
    (k v : Value) (rest : List (Value × Value)) :
    serializeEntries isNum st ((k, v) :: rest) =
      (match mapKeySer k with
       | Except.error e => Except.error e
       | Except.ok ok =>
         match serializeValue isNum
                 { st with fmt := ((st.fmt.comma st.first).1.colon).1 } v with
         | Except.error e => Except.error e
         | Except.ok p =>
           match serializeEntries isNum { p.1 with first := false } rest with
           | Except.error e => Except.error e
           | Except.ok p2 =>
             Except.ok (p2.1, (st.fmt.comma st.first).2 ++ ok ++
               ((st.fmt.comma st.first).1.colon).2 ++ p.2 ++ p2.2)) := rfl

theorem mapKeySer_ne_underflow (k : Value) :
    mapKeySer k ≠ Except.error SerErr.underflow := by
  cases k <;> simp [mapKeySer]

mutual

/-- The serializer never hits the close-at-depth-zero panic, and on success
it restores the formatter depth and stack exactly (every `open` in a value
encoding is matched by its `close`). -/
theorem sv_pres (isNum : List Char → Bool) (st : SState) :
    (v : Value) →
    serializeValue isNum st v ≠ Except.error SerErr.underflow ∧
    ∀ p, serializeValue isNum st v = Except.ok p →
      p.1.fmt.current_indent = st.fmt.current_indent ∧ p.1.fmt.stack = st.fmt.stack
  | Value.bool b => by
    refine ⟨by simp [serializeValue_bool], ?_⟩
    intro p hp
    rw [serializeValue_bool, Except.ok.injEq] at hp
    rw [← hp]
    simp
  | Value.int n => by
    refine ⟨by simp [serializeValue_int], ?_⟩
    intro p hp
    rw [serializeValue_int, Except.ok.injEq] at hp
    rw [← hp]
    simp
  | Value.float x => by
    refine ⟨by simp [serializeValue_float], ?_⟩
    intro p hp
    rw [serializeValue_float, Except.ok.injEq] at hp
    rw [← hp]
    simp [serialize_f64_fst_ci, serialize_f64_fst_stack]
  | Value.str s => by
    refine ⟨by simp [serializeValue_str], ?_⟩
    intro p hp
    rw [serializeValue_str, Except.ok.injEq] at hp
    rw [← hp]
    simp [quote_str_fst_ci, quote_str_fst_stack]
  | Value.unit => by
    refine ⟨by simp [serializeValue_unit], ?_⟩
    intro p hp
    rw [serializeValue_unit, Except.ok.injEq] at hp
    rw [← hp]
    simp
  | Value.none => by
    refine ⟨by simp [serializeValue_none], ?_⟩
    intro p hp
    rw [serializeValue_none, Except.ok.injEq] at hp
    rw [← hp]
    simp
  | Value.some v => by
    rw [serializeValue_some]
    exact sv_pres isNum st v
  | Value.seq [] => by
    refine ⟨by simp [serializeValue_seq_nil], ?_⟩
    intro p hp
    rw [serializeValue_seq_nil, Except.ok.injEq] at hp
    rw [← hp]
    simp
  | Value.seq (v :: vs) => by
    have hse := se_pres isNum { fmt := (st.fmt.fopen '[').1, first := true } (v :: vs)
    rw [serializeValue_seq_cons]
    cases hres : serializeElems isNum { fmt := (st.fmt.fopen '[').1, first := true }
        (v :: vs) with
    | error e =>
      refine ⟨?_, ?_⟩
      · simp only [hres]
        intro hbad
        injection hbad with he
        exact hse.1 (by rw [hres, he])
      · intro p hp
        simp only [hres] at hp
        exact absurd hp (by simp)
    | ok p2 =>
      have hp2 := hse.2 p2 hres
      have hci : p2.1.fmt.current_indent = st.fmt.current_indent + 1 := by
        rw [hp2.1]; simp
      have hst : p2.1.fmt.stack = st.fmt.current_is_array :: st.fmt.stack := by
        rw [hp2.2]; simp
      have hclose := close_of_pos p2.1.fmt ']' st.fmt.current_is_array st.fmt.stack
        (by omega) hst
      refine ⟨?_, ?_⟩
      · simp only [hres, hclose]
        simp
      · intro p hp
        simp only [hres, hclose] at hp
        rw [Except.ok.injEq] at hp
        rw [← hp]
        exact ⟨by simp [hci], rfl⟩
  | Value.map [] => by
    refine ⟨by simp [serializeValue_map_nil], ?_⟩
    intro p hp
    rw [serializeValue_map_nil, Except.ok.injEq] at hp
    rw [← hp]
    simp
  | Value.map (kv :: rest) => by
    have hse := sent_pres isNum { fmt := (st.fmt.fopen lbrace).1, first := true }
      (kv :: rest)
    rw [serializeValue_map_cons]
    cases hres : serializeEntries isNum { fmt := (st.fmt.fopen lbrace).1, first := true }
        (kv :: rest) with
    | error e =>
      refine ⟨?_, ?_⟩
      · simp only [hres]
        intro hbad
        injection hbad with he
        exact hse.1 (by rw [hres, he])
      · intro p hp
        simp only [hres] at hp
        exact absurd hp (by simp)
    | ok p2 =>
      have hp2 := hse.2 p2 hres
      have hci : p2.1.fmt.current_indent = st.fmt.current_indent + 1 := by
        rw [hp2.1]; simp
      have hst : p2.1.fmt.stack = st.fmt.current_is_array :: st.fmt.stack := by
        rw [hp2.2]; simp
      have hclose := close_of_pos p2.1.fmt rbrace st.fmt.current_is_array st.fmt.stack
        (by omega) hst
      refine ⟨?_, ?_⟩
      · simp only [hres, hclose]
        simp
      · intro p hp
        simp only [hres, hclose] at hp
        rw [Except.ok.injEq] at hp
        rw [← hp]
        exact ⟨by simp [hci], rfl⟩

/-- Element-loop analogue of `sv_pres`. -/
theorem se_pres (isNum : List Char → Bool) (st : SState) :
    (vs : List Value) →
    serializeElems isNum st vs ≠ Except.error SerErr.underflow ∧
    ∀ p, serializeElems isNum st vs = Except.ok p →
      p.1.fmt.current_indent = st.fmt.current_indent ∧ p.1.fmt.stack = st.fmt.stack
  | [] => by
    refine ⟨by simp [serializeElems_nil], ?_⟩
    intro p hp
    rw [serializeElems_nil, Except.ok.injEq] at hp
    rw [← hp]
    exact ⟨rfl, rfl⟩
  | v :: rest => by
    have hv := sv_pres isNum { st with fmt := (st.fmt.comma st.first).1 } v
    rw [serializeElems_cons]
    cases hres : serializeValue isNum { st with fmt := (st.fmt.comma st.first).1 } v with
    | error e =>
      refine ⟨?_, ?_⟩
      · simp only [hres]
        intro hbad
        injection hbad with he
        exact hv.1 (by rw [hres, he])
      · intro p hp
        simp only [hres] at hp
        exact absurd hp (by simp)
    | ok p2 =>
      have hp2 := hv.2 p2 hres
      have hrest := se_pres isNum { p2.1 with first := false } rest
      cases hres2 : serializeElems isNum { p2.1 with first := false } rest with
      | error e2 =>
        refine ⟨?_, ?_⟩
        · simp only [hres, hres2]
          intro hbad
          injection hbad with he
          exact hrest.1 (by rw [hres2, he])
        · intro p hp
          simp only [hres, hres2] at hp
          exact absurd hp (by simp)
      | ok p3 =>
        have hp3 := hrest.2 p3 hres2
        refine ⟨by simp only [hres, hres2]; simp, ?_⟩
        intro p hp
        simp only [hres, hres2] at hp
        rw [Except.ok.injEq] at hp
        rw [← hp]
        constructor
        · rw [hp3.1]
          simp only [comma_fst] at hp2
          exact hp2.1
        · rw [hp3.2]
          simp only [comma_fst] at hp2
          exact hp2.2

/-- Entry-loop analogue of `sv_pres`. -/
theorem sent_pres (isNum : List Char → Bool) (st : SState) :
    (es : List (Value × Value)) →
    serializeEntries isNum st es ≠ Except.error SerErr.underflow ∧
    ∀ p, serializeEntries isNum st es = Except.ok p →
      p.1.fmt.current_indent = st.fmt.current_indent ∧ p.1.fmt.stack = st.fmt.stack
  | [] => by
    refine ⟨by simp [serializeEntries_nil], ?_⟩
    intro p hp
    rw [serializeEntries_nil, Except.ok.injEq] at hp
    rw [← hp]
    exact ⟨rfl, rfl⟩
  | (k, v) :: rest => by
    rw [serializeEntries_cons]
    cases hkey : mapKeySer k with
    | error e =>
      refine ⟨?_, ?_⟩
      · simp only [hkey]
        intro hbad
        injection hbad with he
        exact mapKeySer_ne_underflow k (by rw [hkey, he])
      · intro p hp
        simp only [hkey] at hp
        exact absurd hp (by simp)
    | ok ks =>
      have hv := sv_pres isNum
        { st with fmt := ((st.fmt.comma st.first).1.colon).1 } v
      cases hres : serializeValue isNum
          { st with fmt := ((st.fmt.comma st.first).1.colon).1 } v with
      | error e =>
        refine ⟨?_, ?_⟩
        · simp only [hkey, hres]
          intro hbad
          injection hbad with he
          exact hv.1 (by rw [hres, he])
        · intro p hp
          simp only [hkey, hres] at hp
          exact absurd hp (by simp)
      | ok p2 =>
        have hp2 := hv.2 p2 hres
        have hrest := sent_pres isNum { p2.1 with first := false } rest
        cases hres2 : serializeEntries isNum { p2.1 with first := false } rest with
        | error e2 =>
          refine ⟨?_, ?_⟩
          · simp only [hkey, hres, hres2]
            intro hbad
            injection hbad with he
            exact hrest.1 (by rw [hres2, he])
          · intro p hp
            simp only [hkey, hres, hres2] at hp
            exact absurd hp (by simp)
        | ok p3 =>
          have hp3 := hrest.2 p3 hres2
          refine ⟨by simp only [hkey, hres, hres2]; simp, ?_⟩
          intro p hp
          simp only [hkey, hres, hres2] at hp
          rw [Except.ok.injEq] at hp
          rw [← hp]
          constructor
          · rw [hp3.1, hp2.1]
            simp
          · rw [hp3.2, hp2.2]
            simp

end

theorem entries_bad (isNum : List Char → Bool) (es : List (Value × Value)) :
    ∀ (st : SState), (∃ kv ∈ es, isStrValue kv.1 = false) →
    serializeEntries isNum st es = Except.error SerErr.keyMustBeAString := by
  induction es with
  | nil =>
    intro st h
    rcases h with ⟨kv, hm, _⟩
    simp at hm
  | cons kv rest ih =>
    intro st h
    obtain ⟨k, v⟩ := kv
    rw [serializeEntries_cons]
    by_cases hk : isStrValue k = false
    · have hkey : mapKeySer k = Except.error SerErr.keyMustBeAString := by
        cases k <;> simp [mapKeySer, isStrValue] at hk ⊢
      simp only [hkey]
    · have hbadrest : ∃ kv2 ∈ rest, isStrValue kv2.1 = false := by
        rcases h with ⟨kv2, hm, hb⟩
        rcases List.mem_cons.mp hm with h1 | h2
        · rw [h1] at hb
          exact absurd hb hk
        · exact ⟨kv2, h2, hb⟩
      have hks : ∃ s, k = Value.str s := by
        cases k <;> simp [isStrValue] at hk ⊢
      obtain ⟨s, rfl⟩ := hks
      have hkey : mapKeySer (Value.str s) = Except.ok (escape_key s) := rfl
      simp only [hkey]
      cases hres : serializeValue isNum
          { st with fmt := ((st.fmt.comma st.first).1.colon).1 } v with
      | error e =>
        have hne := (sv_pres isNum
          { st with fmt := ((st.fmt.comma st.first).1.colon).1 } v).1
        cases e with
        | keyMustBeAString => simp only [hres]
        | underflow => exact absurd hres hne
      | ok p2 =>
        simp only [hres]
        rw [ih { p2.1 with first := false } hbadrest]

/-- Claim C7: a map entry whose key serializes as any non-string kind makes
the encode fail with the fixed KeyMustBeAString error, at whatever position
the entry occurs and from whatever serializer state; string keys are
accepted and routed through escape_key. -/
theorem c7_nonstring_key_rejected (isNum : List Char → Bool) (st : SState)
    (es : List (Value × Value)) (h : ∃ kv ∈ es, isStrValue kv.1 = false) :
    serializeValue isNum st (Value.map es) = Except.error SerErr.keyMustBeAString ∧
    ∀ s, mapKeySer (Value.str s) = Except.ok (escape_key s) := by
  refine ⟨?_, fun s => rfl⟩
  cases es with
  | nil =>
    rcases h with ⟨kv, hm, _⟩
    simp at hm
  | cons kv rest =>
    rw [serializeValue_map_cons]
    rw [entries_bad isNum (kv :: rest) { fmt := (st.fmt.fopen lbrace).1, first := true } h]

theorem c7_witness :
    isStrValue (Value.bool true) = false ∧
    serializeValue (fun _ => false) newSerializer
        (Value.map [(Value.bool true, Value.unit)]) =
      Except.error SerErr.keyMustBeAString :=
  ⟨rfl,
   (c7_nonstring_key_rejected (fun _ => false) newSerializer
      [(Value.bool true, Value.unit)]
      ⟨(Value.bool true, Value.unit), List.mem_singleton.mpr rfl, rfl⟩).1⟩

/-- Claim C5: an empty sequence is encoded as exactly the two characters
`[]` and an empty map as exactly the two characters of braces, with nothing
between the brackets, from every serializer state (hence at every nesting
depth); the only text that can precede them is the single deferred
post-colon space of `start_value`. -/
theorem c5_empty_containers (isNum : List Char → Bool) (st : SState) :
    serializeValue isNum st (Value.seq []) =
      Except.ok ({ st with fmt := st.fmt.start_value.1 },
                 st.fmt.start_value.2 ++ ['[', ']']) ∧
    serializeValue isNum st (Value.map []) =
      Except.ok ({ st with fmt := st.fmt.start_value.1 },
                 st.fmt.start_value.2 ++ [lbrace, rbrace]) ∧
    (st.fmt.start_value.2 = [] ∨ st.fmt.start_value.2 = [' ']) :=
  ⟨serializeValue_seq_nil isNum st, serializeValue_map_nil isNum st,
   start_value_snd st.fmt⟩

theorem mem_indentRep (c : Char) (n : Nat) (s : List Char) :
    c ∈ indentRep n s → c ∈ s := by
  induction n with
  | zero => intro h; simp [indentRep] at h
  | succ m ih =>
    intro h
    rcases List.mem_append.mp h with h1 | h2
    · exact h1
    · exact ih h2

/-- Claim C9: the comma operation of the formatter, for either value of the
`first` flag, emits exactly one newline followed by `current_indent`
repetitions of the indent unit, and never a comma glyph (provided the
configured indent unit contains none). -/
theorem c9_comma_newline_indent (f : HjsonFormatter) (first : Bool) :
    f.comma first = (f, '\n' :: indentRep f.current_indent f.indent) ∧
    (',' ∉ f.indent → ',' ∉ (f.comma first).2) := by
  refine ⟨rfl, ?_⟩
  intro h hm
  simp only [HjsonFormatter.comma] at hm
  rcases List.mem_cons.mp hm with h1 | h2
  · exact absurd h1 (by decide)
  · exact h (mem_indentRep ',' f.current_indent f.indent h2)

theorem c9_witness :
    ',' ∉ HjsonFormatter.new.indent ∧ ',' ∉ (HjsonFormatter.new.comma true).2 :=
  ⟨by decide, (c9_comma_newline_indent HjsonFormatter.new true).2 (by decide)⟩

theorem runOps_aux : ∀ (ops : List FOp) (f : HjsonFormatter),
    f.stack.length = f.current_indent →
    (∀ i (h : i < ops.length), isCloseOp (ops.get ⟨i, h⟩) = true →
      closeCount (ops.take i) < openCount (ops.take i) + f.current_indent) →
    (runOps f ops).isSome = true
  | [], f, _, _ => by simp [runOps]
  | op :: rest, f, hinv, hcond => by
    have tailcond : ∀ (f1 : HjsonFormatter),
        (openCount [op] + f.current_indent = closeCount [op] + f1.current_indent) →
        ∀ i (h : i < rest.length), isCloseOp (rest.get ⟨i, h⟩) = true →
          closeCount (rest.take i) < openCount (rest.take i) + f1.current_indent := by
      intro f1 hbal i h hc
      have := hcond (i + 1) (by simpa using Nat.succ_lt_succ h) (by simpa using hc)
      simp only [List.take_succ_cons, closeCount, openCount, List.countP_cons,
        List.countP_nil] at this hbal ⊢
      omega
    cases op with
    | fopen ch =>
      have hrun := runOps_aux rest (f.fopen ch).1 (by simp [hinv])
        (tailcond (f.fopen ch).1 (by simp [openCount, closeCount, isOpenOp, isCloseOp] <;> omega))
      simp only [runOps, stepF]
      cases hr : runOps (f.fopen ch).1 rest with
      | none => rw [hr] at hrun; simp at hrun
      | some p2 => simp
    | comma b =>
      have hrun := runOps_aux rest f hinv
        (tailcond f (by simp [openCount, closeCount, isOpenOp, isCloseOp] <;> omega))
      simp only [runOps, stepF, comma_fst]
      cases hr : runOps f rest with
      | none => rw [hr] at hrun; simp at hrun
      | some p2 => simp
    | colon =>
      have hrun := runOps_aux rest f.colon.1
        (by simp [hinv])
        (tailcond f.colon.1 (by simp [openCount, closeCount, isOpenOp, isCloseOp] <;> omega))
      simp only [runOps, stepF]
      cases hr : runOps f.colon.1 rest with
      | none => rw [hr] at hrun; simp at hrun
      | some p2 => simp
    | newline add =>
      have hrun := runOps_aux rest (f.newline add).1
        (by simp [hinv])
        (tailcond (f.newline add).1 (by simp [openCount, closeCount, isOpenOp, isCloseOp] <;> omega))
      simp only [runOps, stepF]
      cases hr : runOps (f.newline add).1 rest with
      | none => rw [hr] at hrun; simp at hrun
      | some p2 => simp
    | start_value =>
      have hrun := runOps_aux rest f.start_value.1
        (by simp [hinv])
        (tailcond f.start_value.1 (by simp [openCount, closeCount, isOpenOp, isCloseOp] <;> omega))
      simp only [runOps, stepF]
      cases hr : runOps f.start_value.1 rest with
      | none => rw [hr] at hrun; simp at hrun
      | some p2 => simp
    | close ch =>
      have h0 := hcond 0 (by simp) (by simp [isCloseOp])
      simp only [List.take_zero, closeCount, openCount, List.countP_nil] at h0
      have hpos : 0 < f.current_indent := by omega
      obtain ⟨a, restS, hst⟩ : ∃ a restS, f.stack = a :: restS := by
        cases hs : f.stack with
        | nil => rw [hs] at hinv; simp at hinv; omega
        | cons a r => exact ⟨a, r, rfl⟩
      have hclose := close_of_pos f ch a restS hpos hst
      have hinv2 : restS.length + 1 = f.current_indent := by
        rw [hst] at hinv; simpa using hinv
      have hrun := runOps_aux rest
        { f with current_indent := f.current_indent - 1,
                 current_is_array := a, stack := restS }
        (by simp; omega)
        (tailcond _ (by simp [openCount, closeCount, isOpenOp, isCloseOp] <;> omega))
      simp only [runOps, stepF, hclose]
      cases hr : runOps
          { f with current_indent := f.current_indent - 1,
                   current_is_array := a, stack := restS } rest with
      | none => rw [hr] at hrun; simp at hrun
      | some p2 => simp

/-- Claim C10: for every formatter call sequence in which each close call is
preceded by strictly more open than close calls, running the sequence from a
fresh formatter succeeds (the depth decrement cannot underflow and the stack
pop cannot fail); and a close call on a formatter at depth zero is not total
(it panics, modelled as Option.none). -/
theorem c10_close_totality :
    (∀ ops : List FOp,
      (∀ i (h : i < ops.length), isCloseOp (ops.get ⟨i, h⟩) = true →
        closeCount (ops.take i) < openCount (ops.take i)) →
      (runOps HjsonFormatter.new ops).isSome = true) ∧
    (∀ (f : HjsonFormatter) (ch : Char), f.current_indent = 0 →
      f.close ch = Option.none) := by
  constructor
  · intro ops h
    apply runOps_aux ops HjsonFormatter.new rfl
    intro i hi hc
    have := h i hi hc
    simpa [HjsonFormatter.new, HjsonFormatter.with_indent] using this
  · intro f ch h
    unfold HjsonFormatter.close
    rw [if_pos h]

theorem c10_witness :
    (runOps HjsonFormatter.new [FOp.fopen '[', FOp.close ']']).isSome = true ∧
    HjsonFormatter.new.close rbrace = Option.none :=
  ⟨c10_close_totality.1 [FOp.fopen '[', FOp.close ']'] (by decide),
   c10_close_totality.2 HjsonFormatter.new rbrace rfl⟩

/-- Claim C8: escape_bytes wraps the content in double quotes, and
inverting the escape table on the content between the quotes recovers the
original byte sequence, for every input. -/
theorem c8_escape_roundtrip (bs : List Nat) :
    escape_bytes bs = 34 :: escape_bytes_content bs ++ [34] ∧
    unescape_content (escape_bytes_content bs) = Option.some bs := by
  refine ⟨rfl, ?_⟩
  induction bs with
  | nil => rfl
  | cons b rest ih =>
    simp only [escape_bytes_content]
    unfold escape_byte
    split_ifs with h1 h2 h3 h4 h5 h6 h7
    · subst h1; simp [unescape_content, unescape_byte, ih]
    · subst h2; simp [unescape_content, unescape_byte, ih]
    · subst h3; simp [unescape_content, unescape_byte, ih]
    · subst h4; simp [unescape_content, unescape_byte, ih]
    · subst h5; simp [unescape_content, unescape_byte, ih]
    · subst h6; simp [unescape_content, unescape_byte, ih]
    · subst h7; simp [unescape_content, unescape_byte, ih]
    · rw [unescape_content.eq_def]
      simp [h2, ih]

/-- Claim C4: NaN and the infinities encode as the literal null; both IEEE
zeros encode identically (as the canonical `0f64`, whose rendering is `0`);
for any other finite value the plain rendering is chosen unless it is more
than one character longer than the scientific rendering, in which case the
scientific rendering is chosen, with its `e` rewritten to `e+` unless the
exponent is negative.  `f1`/`f2` abstract the standard-library renderings
`format!("{}")` and `format!("{:e}")`. -/
theorem c4_float_formatting (f : HjsonFormatter) (v : F64) :
    ((v.category = FpCat.nan ∨ v.category = FpCat.infinite) →
      serialize_f64 f v = (f.start_value.1, f.start_value.2 ++ kwNull)) ∧
    (v.category = FpCat.zero →
      serialize_f64 f v = serialize_f64 f posZeroF64 ∧
      serialize_f64 f v = (f.start_value.1, f.start_value.2 ++ ['0'])) ∧
    ((v.category = FpCat.normal ∨ v.category = FpCat.subnormal) →
      ((v.f1.length ≤ v.f2.length + 1 →
         serialize_f64 f v = (f.start_value.1, f.start_value.2 ++ v.f1)) ∧
       (v.f2.length + 1 < v.f1.length →
         serialize_f64 f v = (f.start_value.1, f.start_value.2 ++
           (if containsSub ['e', '-'] v.f2 then v.f2 else replaceEPlus v.f2))))) := by
  refine ⟨?_, ?_, ?_⟩
  · intro h
    rcases h with h | h <;> simp [serialize_f64, fmt_f64_or_null, h]
  · intro h
    refine ⟨by simp [serialize_f64, h, posZeroF64], ?_⟩
    simp [serialize_f64, h, fmt_f64_or_null, posZeroF64, fmt_small]
  · intro h
    have hnz : ¬ v.category = FpCat.zero := by
      rcases h with h | h <;> rw [h] <;> simp
    have hnn : fmt_f64_or_null v = fmt_small v := by
      rcases h with h | h <;> simp [fmt_f64_or_null, h]
    refine ⟨?_, ?_⟩
    · intro hlen
      simp [serialize_f64, if_neg hnz, hnn, fmt_small, if_pos hlen]
    · intro hlen
      have hgt : ¬ (v.f1.length ≤ v.f2.length + 1) := by omega
      simp [serialize_f64, if_neg hnz, hnn, fmt_small, if_neg hgt]

theorem c4_witness :
    (['1', 'e', '8'] : List Char).length + 1 <
      (['1', '0', '0', '0', '0', '0', '0', '0', '0'] : List Char).length ∧
    serialize_f64 HjsonFormatter.new
      { category := FpCat.normal,
        f1 := ['1', '0', '0', '0', '0', '0', '0', '0', '0'],
        f2 := ['1', 'e', '8'] } =
      (HjsonFormatter.new, ['1', 'e', '+', '8']) :=
  ⟨by decide, by
    have h := ((c4_float_formatting HjsonFormatter.new
      { category := FpCat.normal,
        f1 := ['1', '0', '0', '0', '0', '0', '0', '0', '0'],
        f2 := ['1', 'e', '8'] }).2.2 (Or.inl rfl)).2 (by decide)
    exact h.trans (by decide)⟩

/-- Claim C6 counterexample: the key `a"b` contains none of the characters
the claim lists (the double quote is missing from the claimed set) and no
comment or triple-quote sequence, so under the claim it would be written
bare; escape_key quotes and escapes it. -/
theorem c6_counterexample :
    claimKeyNeedsQuote ['a', '"', 'b'] = false ∧
    escape_key ['a', '"', 'b'] = ['"', 'a', '\\', '"', 'b', '"'] ∧
    escape_key ['a', '"', 'b'] ≠ ['a', '"', 'b'] :=
  ⟨by decide, by decide, by decide⟩

theorem claimKeyCharAmended_eq (c : Char) : claimKeyCharAmended c = nameEscChar c := by
  unfold claimKeyCharAmended nameEscChar
  cases hw : isWs c <;> simp [hw]

theorem claimKeyNeedsQuoteAmended_eq (v : List Char) :
    claimKeyNeedsQuoteAmended v = NEEDS_ESCAPE_NAME v := by
  unfold claimKeyNeedsQuoteAmended NEEDS_ESCAPE_NAME
  rw [show claimKeyCharAmended = nameEscChar from funext claimKeyCharAmended_eq]
  cases he : v.isEmpty <;> simp [he]

/-- Claim C6 amended: escape_key writes the key quoted-and-escaped exactly
when the key is empty, or contains one of `, { [ } ] : #`, a double quote,
or whitespace, or contains a comment-opening or triple-quote sequence, and
writes it bare (byte for byte, no quotes) otherwise. -/
theorem c6_escape_key_amended (v : List Char) :
    (claimKeyNeedsQuoteAmended v = true → escape_key v = escape_chars v) ∧
    (claimKeyNeedsQuoteAmended v = false → escape_key v = v) := by
  rw [claimKeyNeedsQuoteAmended_eq]
  constructor
  · intro h
    simp [escape_key, h]
  · intro h
    simp [escape_key, h]

theorem c6_witness :
    claimKeyNeedsQuoteAmended ['a'] = false ∧ escape_key ['a'] = ['a'] :=
  ⟨by decide, (c6_escape_key_amended ['a']).2 (by decide)⟩

/-- Claim C1: a non-empty string with no needs-quotes character, no
structural lead or trailing whitespace (NEEDS_QUOTES2), not recognized as a
number, and not starting with a keyword literal, is emitted bare — its
characters verbatim after the pending-space hook, with no quotes. -/
theorem c1_bare_strings (f : HjsonFormatter) (v : List Char)
    (hne : v ≠ [])
    (h1 : needsQuotes v = false)
    (h2 : needsQuotes2 v = false)
    (h3 : startsWithKeyword v = false) :
    quote_str false f v = (f.start_value.1, f.start_value.2 ++ v) := by
  have he : v.isEmpty = false := by
    cases v
    · exact absurd rfl hne
    · rfl
  simp [quote_str, he, h1, h2, h3]

theorem c1_witness :
    (['h', 'e', 'l', 'l', 'o'] : List Char) ≠ [] ∧
    needsQuotes ['h', 'e', 'l', 'l', 'o'] = false ∧
    needsQuotes2 ['h', 'e', 'l', 'l', 'o'] = false ∧
    startsWithKeyword ['h', 'e', 'l', 'l', 'o'] = false ∧
    quote_str false HjsonFormatter.new ['h', 'e', 'l', 'l', 'o'] =
      (HjsonFormatter.new, ['h', 'e', 'l', 'l', 'o']) :=
  ⟨by decide, by decide, by decide, by decide, by
    have h := c1_bare_strings HjsonFormatter.new ['h', 'e', 'l', 'l', 'o']
      (by decide) (by decide) (by decide) (by decide)
    exact h.trans (by decide)⟩

theorem ml_str_len_ge (f : HjsonFormatter) (v : List Char) :
    v.length + 2 ≤ (ml_str f v).2.length := by
  simp only [ml_str]
  by_cases hone : (splitNl v).length = 1
  · rw [if_pos hone]
    have ha : splitNl v = [v] := by
      by_cases hm : '\n' ∈ v
      · have := two_le_splitNl_of_mem v hm
        omega
      · exact splitNl_of_not_mem v hm
    rw [ha]
    simp only [List.headD_cons, List.length_append, tq, List.length_cons]
    omega
  · rw [if_neg hone]
    have h1 := ml_lines_snd_length (f.newline 1).1 (splitNl v)
    have h2 := sumLen_splitNl v
    have h3 : 1 ≤ ((f.newline 1).2).length := by
      simp [HjsonFormatter.newline]
    have h4 : 1 ≤ (((ml_lines (f.newline 1).1 (splitNl v)).1).newline 1).2.length := by
      simp [HjsonFormatter.newline]
    simp only [List.length_append, tq, List.length_cons]
    omega

theorem quote_str_quoted_len (is_number : Bool) (f : HjsonFormatter) (v : List Char)
    (hcond : (is_number || needsQuotes v || needsQuotes2 v ||
      startsWithKeyword v) = true) :
    v.length + 2 ≤ (quote_str is_number f v).2.length := by
  cases he : v.isEmpty with
  | true =>
    have hv : v = [] := by
      cases v
      · rfl
      · simp at he
    subst hv
    simp only [quote_str, List.isEmpty_nil, if_true, List.length_append]
    have := escape_chars_length ([] : List Char)
    omega
  | false =>
    simp only [quote_str, he, Bool.false_eq_true, if_false, hcond, if_true]
    by_cases hml : (needsEscape v && !needsEscapeML v) = true
    · rw [if_pos hml]
      exact ml_str_len_ge f v
    · rw [if_neg hml]
      simp only [List.length_append]
      have := escape_chars_length v
      omega

/-- Claim C2: a string equal to true, false or null, or accepted by the
number recognizer, is never emitted bare: the output of serialize_str is
never the pending-space hook followed by the raw characters (it is always
a quoted escaped form or a triple-quote block, each strictly longer). -/
theorem c2_keywords_numbers_never_bare (is_number : Bool) (f : HjsonFormatter)
    (v : List Char)
    (h : v = kwTrue ∨ v = kwFalse ∨ v = kwNull ∨ is_number = true) :
    (quote_str is_number f v).2 ≠ f.start_value.2 ++ v := by
  have hcond : (is_number || needsQuotes v || needsQuotes2 v ||
      startsWithKeyword v) = true := by
    rcases h with h | h | h | h
    · have hk : startsWithKeyword v = true := by rw [h]; decide
      simp [hk]
    · have hk : startsWithKeyword v = true := by rw [h]; decide
      simp [hk]
    · have hk : startsWithKeyword v = true := by rw [h]; decide
      simp [hk]
    · simp [h]
  intro heq
  have hlen := quote_str_quoted_len is_number f v hcond
  rw [heq] at hlen
  have hsv := start_value_snd_length f
  simp only [List.length_append] at hlen
  omega

theorem c2_witness :
    (kwTrue = kwTrue ∨ kwTrue = kwFalse ∨ kwTrue = kwNull ∨ false = true) ∧
    (quote_str false HjsonFormatter.new kwTrue).2 ≠
      HjsonFormatter.new.start_value.2 ++ kwTrue :=
  ⟨Or.inl rfl,
   c2_keywords_numbers_never_bare false HjsonFormatter.new kwTrue (Or.inl rfl)⟩

theorem ml_lines_fst (f : HjsonFormatter) (a : List (List Char)) :
    (ml_lines f a).1 = if a.isEmpty then f else { f with at_colon := false } := by
  induction a generalizing f with
  | nil => simp [ml_lines]
  | cons l rest ih =>
    simp only [ml_lines, List.isEmpty_cons, Bool.false_eq_true, if_false]
    rw [ih]
    by_cases h : rest.isEmpty = true
    · simp [h, HjsonFormatter.newline]
    · simp [h, HjsonFormatter.newline]

theorem joinNl_append_singleton (xs : List (List Char)) (y : List Char) (h : xs ≠ []) :
    joinNl (xs ++ [y]) = joinNl xs ++ '\n' :: y := by
  induction xs with
  | nil => exact absurd rfl h
  | cons x rest ih =>
    cases rest with
    | nil => simp [joinNl]
    | cons x2 rest2 =>
      have := ih (by simp)
      simp only [List.cons_append, joinNl, List.append_eq] at this ⊢
      rw [this]
      simp

theorem flatten_map_nl (ps : List (List Char)) :
    (ps.map (fun p => '\n' :: p)).flatten = joinNl ([] :: ps) := by
  induction ps with
  | nil => simp [joinNl]
  | cons p rest ih =>
    cases rest with
    | nil => simp [joinNl]
    | cons q rest2 =>
      simp only [List.map_cons, List.flatten_cons] at ih ⊢
      rw [ih]
      simp [joinNl]

theorem not_mem_indentRep (c : Char) (n : Nat) (s : List Char) (h : c ∉ s) :
    c ∉ indentRep n s :=
  fun hm => h (mem_indentRep c n s hm)

theorem pref_eq (f : HjsonFormatter) (hd : f.current_indent < 999) (l : List Char) :
    indentRep (((f.current_indent : Int) +
        (if 0 < l.length then 1 else -999)).toNat) f.indent =
      (if l = [] then [] else indentRep (f.current_indent + 1) f.indent) := by
  cases l with
  | nil =>
    have h0 : ((f.current_indent : Int) + -999).toNat = 0 := by omega
    simp [h0, indentRep]
  | cons c rest =>
    have h1 : ((f.current_indent : Int) + 1).toNat = f.current_indent + 1 := by omega
    simp [h1]

theorem ml_str_multiline (f : HjsonFormatter) (v : List Char)
    (hd : f.current_indent < 999) (hnl : '\n' ∈ v) :
    ml_str f v = ({ f with at_colon := false },
      '\n' :: indentRep (f.current_indent + 1) f.indent ++ tq ++
        mlContent f v ++ tq) := by
  have hone : ¬ (splitNl v).length = 1 := by
    have := two_le_splitNl_of_mem v hnl
    omega
  have htn : ((f.current_indent : Int) + 1).toNat = f.current_indent + 1 := by omega
  have hr1 : f.newline 1 = ({ f with at_colon := false },
      '\n' :: indentRep (f.current_indent + 1) f.indent) := by
    simp [HjsonFormatter.newline, htn]
  have hane : ¬ (splitNl v).isEmpty = true := by
    cases hs : splitNl v with
    | nil => exact absurd hs (splitNl_ne_nil v)
    | cons a t => simp
  simp only [ml_str, if_neg hone]
  rw [hr1]
  rw [ml_lines_fst]
  rw [if_neg hane]
  have hmid : (ml_lines { f with at_colon := false } (splitNl v)).2 =
      joinNl ([] :: mlPieces f v) := by
    rw [ml_lines_snd]
    simp only [List.cons_append]
    have hpt : ∀ l ∈ splitNl v,
        ('\n' :: (indentRep ((({ f with at_colon := false } :
            HjsonFormatter).current_indent : Int) +
          (if 0 < l.length then 1 else -999)).toNat
          ({ f with at_colon := false } : HjsonFormatter).indent ++ l)) =
        ('\n' :: ((if l = [] then []
          else indentRep (f.current_indent + 1) f.indent) ++ l)) := by
      intro l _
      rw [show ({ f with at_colon := false } : HjsonFormatter).current_indent =
        f.current_indent from rfl]
      rw [show ({ f with at_colon := false } : HjsonFormatter).indent =
        f.indent from rfl]
      rw [pref_eq f hd l]
    rw [List.map_congr_left hpt]
    rw [show (fun l => '\n' :: ((if l = [] then []
        else indentRep (f.current_indent + 1) f.indent) ++ l)) =
      (fun p => '\n' :: p) ∘ (fun l => (if l = [] then []
        else indentRep (f.current_indent + 1) f.indent) ++ l) from rfl]
    rw [← List.map_map]
    rw [flatten_map_nl]
    rfl
  rw [hmid]
  simp only [HjsonFormatter.newline, mlContent]
  rw [show (({ f with at_colon := false } : HjsonFormatter).current_indent : Int) =
    (f.current_indent : Int) from rfl]
  rw [htn]
  simp [List.append_assoc]

theorem mem_mlPieces_no_nl (f : HjsonFormatter) (v : List Char)
    (hind : '\n' ∉ f.indent) : ∀ p ∈ mlPieces f v, '\n' ∉ p := by
  intro p hp
  rcases List.mem_map.mp hp with ⟨l, hl, rfl⟩
  intro hm
  rcases List.mem_append.mp hm with h1 | h2
  · by_cases hle : l = []
    · rw [if_pos hle] at h1
      simp at h1
    · rw [if_neg hle] at h1
      exact (not_mem_indentRep '\n' _ _ hind) h1
  · exact not_mem_nl_splitNl v l hl h2

theorem splitNl_mlContent (f : HjsonFormatter) (v : List Char)
    (hind : '\n' ∉ f.indent) :
    splitNl (mlContent f v) =
      [] :: mlPieces f v ++ [indentRep (f.current_indent + 1) f.indent] := by
  unfold mlContent
  rw [← joinNl_append_singleton ([] :: mlPieces f v) _ (by simp)]
  have hmem : ∀ l ∈ ([] :: mlPieces f v) ++
      [indentRep (f.current_indent + 1) f.indent], '\n' ∉ l := by
    intro l hl
    rcases List.mem_append.mp hl with h1 | h2
    · rcases List.mem_cons.mp h1 with h3 | h4
      · rw [h3]
        simp
      · exact mem_mlPieces_no_nl f v hind l h4
    · rw [List.mem_singleton.mp h2]
      exact not_mem_indentRep '\n' _ _ hind
  rw [splitNl_joinNl _ (by simp) hmem]

theorem strip_mlPieces (f : HjsonFormatter) (v : List Char) :
    (mlPieces f v).map (fun p => if p = [] then []
      else p.drop (indentRep (f.current_indent + 1) f.indent).length) = splitNl v := by
  unfold mlPieces
  rw [List.map_map]
  have hpt : ∀ l ∈ splitNl v,
      ((fun p => if p = [] then []
          else p.drop (indentRep (f.current_indent + 1) f.indent).length) ∘
        (fun l => (if l = [] then []
          else indentRep (f.current_indent + 1) f.indent) ++ l)) l = id l := by
    intro l _
    by_cases hl : l = []
    · simp [hl]
    · simp only [Function.comp_apply, if_neg hl, id_eq]
      have hne : indentRep (f.current_indent + 1) f.indent ++ l ≠ [] := by
        simp [hl]
      rw [if_neg hne]
      exact List.drop_left _ _
  rw [List.map_congr_left hpt, List.map_id]

/-- Claim C3, amended: a string that requires quoting, contains a line feed
and no multiline-unsafe character is emitted as the triple-quote block form;
splitting the block content on line feeds yields an initial empty piece,
each original line prefixed by the depth+1 indentation when non-empty (bare
when empty), and a final indentation-only piece before the closing
delimiter; stripping those indentation prefixes reproduces the original
lines exactly.  (Holds at depths below the -999 sentinel clamp and for
indent units free of line feeds, such as the default.) -/
theorem c3_multiline_amended (is_number : Bool) (f : HjsonFormatter) (v : List Char)
    (hq : (is_number || needsQuotes v || needsQuotes2 v ||
      startsWithKeyword v) = true)
    (hnl : '\n' ∈ v)
    (hml : needsEscapeML v = false)
    (hind : '\n' ∉ f.indent)
    (hd : f.current_indent < 999) :
    quote_str is_number f v = ({ f with at_colon := false },
      '\n' :: indentRep (f.current_indent + 1) f.indent ++ tq ++
        mlContent f v ++ tq) ∧
    splitNl (mlContent f v) =
      [] :: mlPieces f v ++ [indentRep (f.current_indent + 1) f.indent] ∧
    (mlPieces f v).map (fun p => if p = [] then []
      else p.drop (indentRep (f.current_indent + 1) f.indent).length) = splitNl v := by
  refine ⟨?_, splitNl_mlContent f v hind, strip_mlPieces f v⟩
  have hne : v ≠ [] := by
    intro h
    rw [h] at hnl
    simp at hnl
  have hie : v.isEmpty = false := by
    cases v
    · exact absurd rfl hne
    · rfl
  have hesc : needsEscape v = true :=
    List.any_eq_true.mpr ⟨'\n', hnl, by decide⟩
  have hcond2 : (needsEscape v && !needsEscapeML v) = true := by
    rw [hesc, hml]
    rfl
  simp only [quote_str, hie, Bool.false_eq_true, if_false, hq, if_true, hcond2]
  exact ml_str_multiline f v hd hnl

theorem c3_witness :
    (false || needsQuotes ['a', '\n', 'b'] || needsQuotes2 ['a', '\n', 'b'] ||
      startsWithKeyword ['a', '\n', 'b']) = true ∧
    quote_str false HjsonFormatter.new ['a', '\n', 'b'] =
      ({ HjsonFormatter.new with at_colon := false },
       '\n' :: indentRep (HjsonFormatter.new.current_indent + 1)
          HjsonFormatter.new.indent ++ tq ++
         mlContent HjsonFormatter.new ['a', '\n', 'b'] ++ tq) :=
  ⟨by decide,
   (c3_multiline_amended false HjsonFormatter.new ['a', '\n', 'b']
     (by decide) (by decide) (by decide) (by decide) (by decide)).1⟩

/-- Claim C3 counterexample, against the claim as stated: for the string
with lines `a` and `b`, at the default two-space indentation, the emitted
block content between the triple-quote delimiters splits on line feeds into
an empty piece, the indented lines, and a trailing indentation piece — not
into the original lines. -/
theorem c3_counterexample :
    (quote_str false HjsonFormatter.new ['a', '\n', 'b']).2 =
      ('\n' :: [' ', ' ']) ++ tq ++
        ['\n', ' ', ' ', 'a', '\n', ' ', ' ', 'b', '\n', ' ', ' '] ++ tq ∧
    splitNl ['\n', ' ', ' ', 'a', '\n', ' ', ' ', 'b', '\n', ' ', ' '] ≠
      splitNl ['a', '\n', 'b'] :=
  ⟨by decide, by decide⟩
